import Mathlib

/-!
Verification of the cobrell bell-scheduler core.

This file shallowly embeds the scheduling, conflict-detection and playback
logic of the repository (src/dashboard/scheduler.py, src/dashboard/views.py,
src/dashboard/models.py) as executable Lean definitions, and proves the
specified properties about them.

Modelling conventions:
* Django model instances become Lean structures; the database is a `DB`
  structure holding lists of rows.
* `datetime` values become `LocalTime` records: an absolute day number
  (with day 0 chosen to be a Monday, so `weekday = dayNumber % 7`,
  mirroring Python's `date.weekday()`), plus hour/minute/second fields.
  `now.date()` is the day number.
* Audio durations (`Musik.durasi`, a Python float) are modelled as
  rationals; `math.ceil` becomes `Int.ceil`.
* Threads and the module-global playback state of scheduler.py become an
  explicit `PlaybackState` record passed through the playback functions;
  the filesystem seen by `os.path.isfile` is a list of existing paths.
-/

namespace Cobrell

/-- The seven weekday values of `JadwalBel.hari` (model field choices). -/
inductive Hari where
  | senin | selasa | rabu | kamis | jumat | sabtu | minggu
deriving DecidableEq, Repr

/-- The stored string value of a `hari` field (models.py HARI_CHOICES keys). -/
def Hari.str : Hari → String
  | .senin => "senin" | .selasa => "selasa" | .rabu => "rabu" | .kamis => "kamis"
  | .jumat => "jumat" | .sabtu => "sabtu" | .minggu => "minggu"

/-- The display label of a `hari` field (models.py HARI_CHOICES labels,
used by `get_hari_display` and by `hari_labels` in views.py). -/
def Hari.label : Hari → String
  | .senin => "Senin" | .selasa => "Selasa" | .rabu => "Rabu" | .kamis => "Kamis"
  | .jumat => "Jumat" | .sabtu => "Sabtu" | .minggu => "Minggu"

/-- WEEKDAY_MAP of scheduler.py / views.py: Python weekday 0..6 → hari value. -/
def weekdayMap : Nat → Hari
  | 0 => .senin | 1 => .selasa | 2 => .rabu | 3 => .kamis
  | 4 => .jumat | 5 => .sabtu | _ => .minggu

/-- A time-of-day as stored in `JadwalBel.jam` (Django TimeField). -/
structure TimeOfDay where
  hour : Nat
  minute : Nat
  second : Nat
deriving DecidableEq, Repr

/-- A `Musik` row: uploaded audio clip with its duration in seconds
(`durasi`, 0 when unknown). -/
structure Musik where
  pk : Nat
  nama : String
  durasi : ℚ
deriving DecidableEq, Repr

/-- A `JadwalBel` row: one named bell schedule on one weekday at one time. -/
structure Jadwal where
  pk : Nat
  nama : String
  hari : Hari
  jam : TimeOfDay
  musik : Option Musik
  aktif : Bool
deriving DecidableEq, Repr

/-- A `Pengecualian` row: suppresses one schedule on one calendar date
(dates are absolute day numbers). -/
structure Pengecualian where
  tanggal : Nat
  jadwalPk : Nat
deriving DecidableEq, Repr

/-- The persisted data both the validator and the resolver read. -/
structure DB where
  jadwal : List Jadwal
  peng : List Pengecualian
deriving Repr

/-- A local timestamp: absolute day number (day 0 is a Monday) plus
time-of-day fields.  `weekday` is `dayNumber % 7` as in Python. -/
structure LocalTime where
  dayNumber : Nat
  hour : Nat
  minute : Nat
  second : Nat
deriving DecidableEq, Repr

/-- `now.time()` of a timestamp. -/
def LocalTime.time (t : LocalTime) : TimeOfDay := ⟨t.hour, t.minute, t.second⟩

/-- `now.weekday()` of a timestamp. -/
def LocalTime.weekday (t : LocalTime) : Nat := t.dayNumber % 7

/-- Zero-padded two-digit rendering, as produced by `%H` / `%M` / `%02d`. -/
def pad2 (n : Nat) : String := if n < 10 then "0" ++ toString n else toString n

/-- `strftime('%H:%M')` of a time-of-day. -/
def TimeOfDay.hhmm (t : TimeOfDay) : String := pad2 t.hour ++ ":" ++ pad2 t.minute

/-! ## Interval model (views.py lines 300–326, 419–425) -/

/-- `_time_to_seconds` (views.py): seconds-of-day of a time value. -/
def timeToSeconds (t : TimeOfDay) : Int :=
  (t.hour : Int) * 3600 + (t.minute : Int) * 60 + (t.second : Int)

/-- `_music_duration_seconds` (views.py): `ceil(durasi)` of the linked clip,
or 0 when there is no clip or its duration is 0 (Python falsy float). -/
def musicDurationSeconds (m : Option Musik) : Int :=
  match m with
  | none => 0
  | some mu => if mu.durasi = 0 then 0 else ⌈mu.durasi⌉

/-- `_interval_overlaps` (views.py): half-open interval overlap test. -/
def intervalOverlaps (startA endA startB endB : Int) : Bool :=
  decide (startA < endB) && decide (startB < endA)

/-- `_seconds_to_time_str` (views.py): clamp to 86399 then format HH:MM:SS. -/
def secondsToTimeStr (totalSeconds : Int) : String :=
  let t := (min totalSeconds 86399).toNat
  pad2 (t / 3600) ++ ":" ++ pad2 ((t % 3600) / 60) ++ ":" ++ pad2 (t % 60)

/-! ## Playback controller (scheduler.py lines 30–157) -/

/-- The module-global playback state of scheduler.py:
`_current_playback_thread` (None, or a thread that is alive or finished),
`_current_playing_name`, and the `_stop_playback` event. -/
structure PlaybackState where
  thread : Option Bool
  currentName : String
  stopFlag : Bool
deriving DecidableEq, Repr

/-- `is_playing` (scheduler.py): the thread exists and is alive. -/
def isPlayingB (st : PlaybackState) : Bool :=
  match st.thread with
  | some alive => alive
  | none => false

/-- The dict returned by `get_playback_status` (scheduler.py). -/
structure PlaybackStatus where
  isPlaying : Bool
  currentName : String
deriving DecidableEq, Repr

/-- `get_playback_status` (scheduler.py): non-blocking status read. -/
def getPlaybackStatus (st : PlaybackState) : PlaybackStatus :=
  let playing := isPlayingB st
  ⟨playing, if playing then st.currentName else ""⟩

/-- `os.path.basename`. -/
def basename (p : String) : String := (p.splitOn "/").getLastD p

/-- `play_audio` (scheduler.py).  `files` models the set of paths for which
`os.path.isfile` is true.  The function first clears `_stop_playback`, then
returns immediately when the file is missing; otherwise it pre-empts any
live playback (stop flag set, join, flag cleared again) and starts a new
playback thread with the given display name. -/
def playAudio (files : List String) (filePath nm : String) (st : PlaybackState) :
    PlaybackState :=
  let st1 : PlaybackState := { st with stopFlag := false }
  if files.contains filePath = false then
    st1
  else
    { thread := some true
      currentName := if nm = "" then basename filePath else nm
      stopFlag := false }

/-- `stop_audio` (scheduler.py): when a live playback thread exists, set the
stop flag, join it, and reset thread and name; otherwise do nothing. -/
def stopAudio (st : PlaybackState) : PlaybackState :=
  if isPlayingB st then
    { thread := none, currentName := "", stopFlag := true }
  else
    st

/-! ## Due-schedule resolver (scheduler.py lines 204–244) -/

/-- The `schedules` query of `_get_due_schedules`: active rows matching
today's weekday and the current hour and minute. -/
def dueMatches (db : DB) (now : LocalTime) : List Jadwal :=
  db.jadwal.filter fun s =>
    s.aktif && s.hari == weekdayMap now.weekday
      && s.jam.hour == now.hour && s.jam.minute == now.minute

/-- The `exception_jadwal_ids` set of `_get_due_schedules`: pks of
exceptions dated today whose target is among the matched rows. -/
def dueExceptionIds (db : DB) (now : LocalTime) : List Nat :=
  (db.peng.filter fun p =>
    p.tanggal == now.dayNumber
      && ((dueMatches db now).any fun s => s.pk == p.jadwalPk)).map
    (fun p => p.jadwalPk)

/-- `_get_due_schedules` (scheduler.py): active schedules matching the
current weekday and the current hour:minute (seconds ignored), minus those
with a `Pengecualian` dated today. -/
def getDueSchedules (db : DB) (now : LocalTime) : List Jadwal :=
  if (dueMatches db now).isEmpty then []
  else (dueMatches db now).filter fun s => !((dueExceptionIds db now).contains s.pk)

/-! ## Next-bell lookup (views.py lines 40–71) -/

/-- Seconds-of-day of a schedule's `jam` field (TimeField values compare
as their seconds-of-day). -/
def jamSec (s : Jadwal) : Int := timeToSeconds s.jam

/-- Fold computing the first row with minimal `jam` in `x :: xs`. -/
def minByJamFold (x : Jadwal) (xs : List Jadwal) : Jadwal :=
  xs.foldl (fun b y => if jamSec y < jamSec b then y else b) x

/-- `.order_by('jam').first()` of a query result: the first row carrying
the minimal `jam`, or `none` on an empty result. -/
def firstMinByJam : List Jadwal → Option Jadwal
  | [] => none
  | x :: xs => some (minByJamFold x xs)

/-- The query `JadwalBel.objects.filter(aktif=True, hari=h)`. -/
def activeOn (db : DB) (h : Hari) : List Jadwal :=
  db.jadwal.filter fun s => s.aktif && s.hari == h

/-- The query `JadwalBel.objects.filter(aktif=True, hari=today,
jam__gt=current_time)`. -/
def activeTodayAfter (db : DB) (now : LocalTime) : List Jadwal :=
  db.jadwal.filter fun s =>
    s.aktif && s.hari == weekdayMap now.weekday
      && decide (timeToSeconds now.time < jamSec s)

/-- The `for offset in range(1, 8)` search of `_get_next_bell`. -/
def searchNext (db : DB) (now : LocalTime) : List Nat → Option Jadwal
  | [] => none
  | off :: rest =>
    match firstMinByJam (activeOn db (weekdayMap ((now.dayNumber + off) % 7))) with
    | some b => some b
    | none => searchNext db now rest

/-- `_get_next_bell` (views.py): earliest schedule today strictly after
`now.time()`, else the first of the next 7 days that has any active
schedule, taking its earliest one; `none` when nothing is active. -/
def getNextBell (db : DB) (now : LocalTime) : Option Jadwal :=
  match firstMinByJam (activeTodayAfter db now) with
  | some b => some b
  | none => searchNext db now (List.range' 1 7)

end Cobrell

namespace Cobrell

/-- The fold behind `firstMinByJam` returns the seed or a list element. -/
theorem minByJamFold_mem (x : Jadwal) (xs : List Jadwal) :
    minByJamFold x xs = x ∨ minByJamFold x xs ∈ xs := by
  induction xs generalizing x with
  | nil => exact Or.inl rfl
  | cons y ys ih =>
    simp only [minByJamFold, List.foldl_cons] at *
    by_cases h : jamSec y < jamSec x
    · simp only [h, if_true]
      rcases ih y with h' | h'
      · exact Or.inr (by simp [h'])
      · exact Or.inr (List.mem_cons_of_mem _ h')
    · simp only [h, if_false]
      rcases ih x with h' | h'
      · exact Or.inl h'
      · exact Or.inr (List.mem_cons_of_mem _ h')

/-- The fold behind `firstMinByJam` computes a row of minimal `jam`. -/
theorem minByJamFold_le (x : Jadwal) (xs : List Jadwal) :
    jamSec (minByJamFold x xs) ≤ jamSec x
    ∧ ∀ y ∈ xs, jamSec (minByJamFold x xs) ≤ jamSec y := by
  induction xs generalizing x with
  | nil => exact ⟨le_refl _, by intro y hy; exact absurd hy (List.not_mem_nil y)⟩
  | cons y ys ih =>
    simp only [minByJamFold, List.foldl_cons] at *
    by_cases h : jamSec y < jamSec x
    · simp only [h, if_true]
      obtain ⟨ha, hb⟩ := ih y
      refine ⟨le_trans ha (le_of_lt h), ?_⟩
      intro z hz
      rcases List.mem_cons.mp hz with rfl | hz'
      · exact ha
      · exact hb z hz'
    · simp only [h, if_false]
      obtain ⟨ha, hb⟩ := ih x
      refine ⟨ha, ?_⟩
      intro z hz
      rcases List.mem_cons.mp hz with rfl | hz'
      · exact le_trans ha (le_of_not_lt h)
      · exact hb z hz'

/-- `firstMinByJam` returns an element of minimal `jam`. -/
theorem firstMinByJam_some (l : List Jadwal) (s : Jadwal)
    (h : firstMinByJam l = some s) :
    s ∈ l ∧ ∀ t ∈ l, jamSec s ≤ jamSec t := by
  match l, h with
  | x :: xs, h =>
    have hs : s = minByJamFold x xs := by
      simpa [firstMinByJam] using h.symm
    subst hs
    constructor
    · rcases minByJamFold_mem x xs with h' | h'
      · rw [h']; exact List.mem_cons_self x xs
      · exact List.mem_cons_of_mem _ h'
    · intro t ht
      obtain ⟨ha, hb⟩ := minByJamFold_le x xs
      rcases List.mem_cons.mp ht with rfl | ht'
      · exact ha
      · exact hb t ht'

/-- `firstMinByJam` is `none` exactly on the empty query result. -/
theorem firstMinByJam_none (l : List Jadwal) :
    firstMinByJam l = none ↔ l = [] := by
  cases l <;> simp [firstMinByJam]

/-- Membership in the `activeOn` query. -/
theorem mem_activeOn (db : DB) (h : Hari) (s : Jadwal) :
    s ∈ activeOn db h ↔ s ∈ db.jadwal ∧ s.aktif = true ∧ s.hari = h := by
  simp only [activeOn, List.mem_filter, Bool.and_eq_true, beq_iff_eq]

/-- Membership in the `activeTodayAfter` query. -/
theorem mem_activeTodayAfter (db : DB) (now : LocalTime) (s : Jadwal) :
    s ∈ activeTodayAfter db now ↔
      s ∈ db.jadwal ∧ s.aktif = true ∧ s.hari = weekdayMap now.weekday
        ∧ timeToSeconds now.time < jamSec s := by
  simp only [activeTodayAfter, List.mem_filter, Bool.and_eq_true, beq_iff_eq,
    decide_eq_true_eq]
  tauto

/-- Characterisation of a successful `searchNext` over `range' a k`:
some offset resolves, all earlier offsets find nothing. -/
theorem searchNext_some (db : DB) (now : LocalTime) (a k : Nat) (s : Jadwal)
    (h : searchNext db now (List.range' a k) = some s) :
    ∃ off, a ≤ off ∧ off < a + k
      ∧ (∀ off', a ≤ off' → off' < off →
          activeOn db (weekdayMap ((now.dayNumber + off') % 7)) = [])
      ∧ firstMinByJam (activeOn db (weekdayMap ((now.dayNumber + off) % 7))) = some s := by
  induction k generalizing a with
  | zero => simp [searchNext] at h
  | succ n ih =>
    rw [List.range'_succ] at h
    simp only [searchNext] at h
    rcases he : firstMinByJam (activeOn db (weekdayMap ((now.dayNumber + a) % 7))) with
      _ | b
    · rw [he] at h
      obtain ⟨off, h1, h2, h3, h4⟩ := ih (a + 1) h
      refine ⟨off, by omega, by omega, ?_, h4⟩
      intro off' hge hlt
      by_cases hcase : off' = a
      · subst hcase
        exact (firstMinByJam_none _).mp he
      · exact h3 off' (by omega) hlt
    · rw [he] at h
      simp only [Option.some.injEq] at h
      subst h
      refine ⟨a, le_refl a, by omega, ?_, he⟩
      intro off' hge hlt
      omega

/-- A failed `searchNext` means every offset's weekday has no active row. -/
theorem searchNext_none (db : DB) (now : LocalTime) (offs : List Nat)
    (h : searchNext db now offs = none) :
    ∀ off ∈ offs, activeOn db (weekdayMap ((now.dayNumber + off) % 7)) = [] := by
  induction offs with
  | nil => intro off hoff; exact absurd hoff (List.not_mem_nil off)
  | cons o os ih =>
    simp only [searchNext] at h
    rcases he : firstMinByJam (activeOn db (weekdayMap ((now.dayNumber + o) % 7))) with
      _ | b
    · rw [he] at h
      intro off hoff
      rcases List.mem_cons.mp hoff with rfl | hoff'
      · exact (firstMinByJam_none _).mp he
      · exact ih h off hoff'
    · rw [he] at h
      exact absurd h (by simp)

/-- Offsets 1..7 cover every weekday residue. -/
theorem offset_covers (d w : Nat) (hw : w < 7) :
    ∃ off, 1 ≤ off ∧ off ≤ 7 ∧ (d + off) % 7 = w := by
  refine ⟨(w + 7 - d % 7 - 1) % 7 + 1, by omega, by omega, ?_⟩
  omega

/-- Every `hari` value is `weekdayMap` of some residue below 7. -/
theorem hari_surjective (h : Hari) : ∃ w, w < 7 ∧ weekdayMap w = h := by
  cases h with
  | senin => exact ⟨0, by omega, rfl⟩
  | selasa => exact ⟨1, by omega, rfl⟩
  | rabu => exact ⟨2, by omega, rfl⟩
  | kamis => exact ⟨3, by omega, rfl⟩
  | jumat => exact ⟨4, by omega, rfl⟩
  | sabtu => exact ⟨5, by omega, rfl⟩
  | minggu => exact ⟨6, by omega, rfl⟩

/-- With no active schedule at all, every weekday query is empty. -/
theorem activeOn_nil_of_all_inactive (db : DB)
    (h : ∀ s ∈ db.jadwal, s.aktif = false) (hd : Hari) :
    activeOn db hd = [] := by
  unfold activeOn
  rw [List.filter_eq_nil_iff]
  intro s hs
  simp [h s hs]

/-- C7: `_get_next_bell` returns `none` exactly when no schedule is active
anywhere; otherwise it returns an active row: the earliest schedule today
strictly after `now.time()` when one exists, else the earliest active
schedule of the first of the following days (offset 1..7 with wraparound)
having any. -/
theorem get_next_bell_spec (db : DB) (now : LocalTime) :
    (getNextBell db now = none ↔ ∀ s ∈ db.jadwal, s.aktif = false)
    ∧ ∀ s, getNextBell db now = some s →
        s ∈ db.jadwal ∧ s.aktif = true ∧
        (if activeTodayAfter db now = [] then
          ∃ off, 1 ≤ off ∧ off ≤ 7
            ∧ (∀ off', 1 ≤ off' → off' < off →
                activeOn db (weekdayMap ((now.dayNumber + off') % 7)) = [])
            ∧ s ∈ activeOn db (weekdayMap ((now.dayNumber + off) % 7))
            ∧ ∀ t ∈ activeOn db (weekdayMap ((now.dayNumber + off) % 7)),
                jamSec s ≤ jamSec t
        else
          s ∈ activeTodayAfter db now
            ∧ ∀ t ∈ activeTodayAfter db now, jamSec s ≤ jamSec t) := by
  constructor
  · constructor
    · intro hnone
      unfold getNextBell at hnone
      rcases he : firstMinByJam (activeTodayAfter db now) with _ | b
      · rw [he] at hnone
        have hall := searchNext_none db now (List.range' 1 7) hnone
        intro s hs
        by_contra hact
        rw [Bool.not_eq_false] at hact
        obtain ⟨w, hw7, hwmap⟩ := hari_surjective s.hari
        obtain ⟨off, hoff1, hoff7, hoffw⟩ := offset_covers now.dayNumber w hw7
        have hoffmem : off ∈ List.range' 1 7 := by
          rw [show List.range' 1 7 = [1, 2, 3, 4, 5, 6, 7] from rfl]
          simp only [List.mem_cons, List.not_mem_nil, or_false]
          omega
        have hemp := hall off hoffmem
        have : s ∈ activeOn db (weekdayMap ((now.dayNumber + off) % 7)) := by
          rw [mem_activeOn]
          exact ⟨hs, hact, by rw [hoffw, hwmap]⟩
        rw [hemp] at this
        exact absurd this (List.not_mem_nil s)
      · rw [he] at hnone
        exact absurd hnone (by simp)
    · intro hall
      have htoday : activeTodayAfter db now = [] := by
        unfold activeTodayAfter
        rw [List.filter_eq_nil_iff]
        intro s hs
        simp [hall s hs]
      have hsearch : ∀ offs, searchNext db now offs = none := by
        intro offs
        induction offs with
        | nil => rfl
        | cons o os ih =>
          simp only [searchNext]
          rw [activeOn_nil_of_all_inactive db hall, show firstMinByJam [] = none from rfl]
          exact ih
      unfold getNextBell
      rw [htoday, show firstMinByJam [] = none from rfl]
      exact hsearch _
  · intro s hsome
    unfold getNextBell at hsome
    rcases he : firstMinByJam (activeTodayAfter db now) with _ | b
    · rw [he] at hsome
      have htoday : activeTodayAfter db now = [] := (firstMinByJam_none _).mp he
      obtain ⟨off, h1, h2, h3, h4⟩ := searchNext_some db now 1 7 s hsome
      obtain ⟨hmem, hmin⟩ := firstMinByJam_some _ s h4
      obtain ⟨hdb, hact, -⟩ := (mem_activeOn db _ s).mp hmem
      refine ⟨hdb, hact, ?_⟩
      rw [if_pos htoday]
      exact ⟨off, h1, by omega, h3, hmem, hmin⟩
    · rw [he] at hsome
      simp only [Option.some.injEq] at hsome
      have he2 : firstMinByJam (activeTodayAfter db now) = some s := by rw [he, hsome]
      obtain ⟨hmem, hmin⟩ := firstMinByJam_some _ s he2
      have hne : activeTodayAfter db now ≠ [] := by
        intro hnil
        rw [hnil] at hmem
        exact absurd hmem (List.not_mem_nil s)
      obtain ⟨hdb, hact, -, -⟩ := (mem_activeTodayAfter db now s).mp hmem
      refine ⟨hdb, hact, ?_⟩
      rw [if_neg hne]
      exact ⟨hmem, hmin⟩

/-- Witness for C7: on a Monday morning with the only active schedule next
Wednesday, `_get_next_bell` returns it via the day-offset scan. -/
theorem get_next_bell_spec_witness :
    (⟨1, "Upacara", Hari.rabu, ⟨8, 0, 0⟩, none, true⟩ : Jadwal)
        ∈ (DB.mk [⟨1, "Upacara", Hari.rabu, ⟨8, 0, 0⟩, none, true⟩] []).jadwal
    ∧ (⟨1, "Upacara", Hari.rabu, ⟨8, 0, 0⟩, none, true⟩ : Jadwal).aktif = true
    ∧ (if activeTodayAfter (DB.mk [⟨1, "Upacara", Hari.rabu, ⟨8, 0, 0⟩, none, true⟩] [])
          ⟨0, 10, 0, 0⟩ = [] then
        ∃ off, 1 ≤ off ∧ off ≤ 7
          ∧ (∀ off', 1 ≤ off' → off' < off →
              activeOn (DB.mk [⟨1, "Upacara", Hari.rabu, ⟨8, 0, 0⟩, none, true⟩] [])
                (weekdayMap ((0 + off') % 7)) = [])
          ∧ (⟨1, "Upacara", Hari.rabu, ⟨8, 0, 0⟩, none, true⟩ : Jadwal)
              ∈ activeOn (DB.mk [⟨1, "Upacara", Hari.rabu, ⟨8, 0, 0⟩, none, true⟩] [])
                (weekdayMap ((0 + off) % 7))
          ∧ ∀ t ∈ activeOn (DB.mk [⟨1, "Upacara", Hari.rabu, ⟨8, 0, 0⟩, none, true⟩] [])
                (weekdayMap ((0 + off) % 7)),
              jamSec (⟨1, "Upacara", Hari.rabu, ⟨8, 0, 0⟩, none, true⟩ : Jadwal) ≤ jamSec t
      else
        (⟨1, "Upacara", Hari.rabu, ⟨8, 0, 0⟩, none, true⟩ : Jadwal)
            ∈ activeTodayAfter (DB.mk [⟨1, "Upacara", Hari.rabu, ⟨8, 0, 0⟩, none, true⟩] [])
              ⟨0, 10, 0, 0⟩
          ∧ ∀ t ∈ activeTodayAfter (DB.mk [⟨1, "Upacara", Hari.rabu, ⟨8, 0, 0⟩, none, true⟩] [])
              ⟨0, 10, 0, 0⟩,
              jamSec (⟨1, "Upacara", Hari.rabu, ⟨8, 0, 0⟩, none, true⟩ : Jadwal) ≤ jamSec t) := by
  have h := (get_next_bell_spec
    (DB.mk [⟨1, "Upacara", Hari.rabu, ⟨8, 0, 0⟩, none, true⟩] []) ⟨0, 10, 0, 0⟩).2
    ⟨1, "Upacara", Hari.rabu, ⟨8, 0, 0⟩, none, true⟩ (by decide)
  exact h

/-- C5: `_interval_overlaps` is the half-open overlap predicate
`startA < endB ∧ startB < endA`; it is symmetric in its two intervals, and
touching endpoints do not overlap (`overlaps(10,20,15,25) =
overlaps(15,25,10,20) = true`, `overlaps(10,20,20,30) = false`). -/
theorem interval_overlaps_spec (sA eA sB eB : Int) :
    (intervalOverlaps sA eA sB eB = true ↔ sA < eB ∧ sB < eA)
    ∧ intervalOverlaps sA eA sB eB = intervalOverlaps sB eB sA eA
    ∧ intervalOverlaps 10 20 15 25 = true
    ∧ intervalOverlaps 15 25 10 20 = true
    ∧ intervalOverlaps 10 20 20 30 = false := by
  refine ⟨?_, ?_, by decide, by decide, by decide⟩
  · simp [intervalOverlaps]
  · simp only [intervalOverlaps]
    rcases Decidable.em (sA < eB) with h1 | h1 <;>
      rcases Decidable.em (sB < eA) with h2 | h2 <;>
        simp [h1, h2]

/-- C9: calling `stop_audio` when nothing is playing leaves the playback
state completely unchanged (idempotent no-op, no error), and the status
afterwards reports not-playing with an empty current name. -/
theorem stop_audio_idempotent_when_idle (st : PlaybackState)
    (h : isPlayingB st = false) :
    stopAudio st = st
    ∧ getPlaybackStatus (stopAudio st) = ⟨false, ""⟩ := by
  have hs : stopAudio st = st := by simp [stopAudio, h]
  refine ⟨hs, ?_⟩
  rw [hs]
  simp [getPlaybackStatus, h]

/-- Witness for C9 at a concrete idle state. -/
theorem stop_audio_idempotent_when_idle_witness :
    stopAudio ⟨none, "", false⟩ = ⟨none, "", false⟩
    ∧ getPlaybackStatus (stopAudio ⟨none, "", false⟩) = ⟨false, ""⟩ :=
  stop_audio_idempotent_when_idle ⟨none, "", false⟩ (by decide)

/-- C10: `play_audio` with a file path that does not exist on disk returns
without touching the live playback: the thread and current name are
unchanged (any clip currently playing is not stopped) and the observable
status is unchanged.  (The only mutation is that the already-cleared stop
event is cleared: the result is the input state with `stopFlag := false`.) -/
theorem play_audio_missing_file_frame (files : List String)
    (filePath nm : String) (st : PlaybackState)
    (h : files.contains filePath = false) :
    playAudio files filePath nm st = { st with stopFlag := false }
    ∧ (playAudio files filePath nm st).thread = st.thread
    ∧ (playAudio files filePath nm st).currentName = st.currentName
    ∧ getPlaybackStatus (playAudio files filePath nm st) = getPlaybackStatus st := by
  have he : playAudio files filePath nm st = { st with stopFlag := false } := by
    unfold playAudio
    rw [h]
    simp
  refine ⟨he, by rw [he], by rw [he], ?_⟩
  rw [he]
  simp [getPlaybackStatus, isPlayingB]

/-- Witness for C10: a missing path while another clip is playing. -/
theorem play_audio_missing_file_frame_witness :
    playAudio ["/media/musik/a.mp3"] "/media/musik/b.mp3" "Bel" ⟨some true, "Lagu", false⟩
        = ⟨some true, "Lagu", false⟩
    ∧ getPlaybackStatus (playAudio ["/media/musik/a.mp3"] "/media/musik/b.mp3" "Bel"
        ⟨some true, "Lagu", false⟩)
        = getPlaybackStatus ⟨some true, "Lagu", false⟩ := by
  have h := play_audio_missing_file_frame ["/media/musik/a.mp3"] "/media/musik/b.mp3"
    "Bel" ⟨some true, "Lagu", false⟩ (by decide)
  exact ⟨h.1, h.2.2.2⟩

/-! ## Trigger engine (scheduler.py lines 247–315) -/

/-- The per-minute dedup state of `BellScheduler`
(`_played_this_minute`, `_last_minute`). -/
structure LoopState where
  played : List Nat
  lastMinute : String
deriving DecidableEq, Repr

/-- `now.strftime('%H:%M')`: the loop's minute key. -/
def minuteKey (t : LocalTime) : String := pad2 t.hour ++ ":" ++ pad2 t.minute

/-- A ring event: `_ring_bell` invoked for schedule `pk` during minute `key`. -/
structure RingEvent where
  key : String
  pk : Nat
deriving DecidableEq, Repr

/-- The `for jadwal in due` body of `_loop`: skip pks already played this
minute, otherwise record the pk and invoke `_ring_bell`.  The ringer may
raise (`Except.error`); the pk has already been recorded and the loop body
aborts, mirroring the mutation order in the source. -/
def ringDue (ringer : Jadwal → LocalTime → Except String Unit) (now : LocalTime) :
    LoopState → List Jadwal → LoopState × List RingEvent × Option String
  | st, [] => (st, [], none)
  | st, j :: rest =>
    if st.played.contains j.pk then ringDue ringer now st rest
    else
      let st' : LoopState := { st with played := j.pk :: st.played }
      match ringer j now with
      | .ok _ =>
        let r := ringDue ringer now st' rest
        (r.1, ⟨minuteKey now, j.pk⟩ :: r.2.1, r.2.2)
      | .error e => (st', [⟨minuteKey now, j.pk⟩], some e)

/-- One iteration of `_loop`: the `try` body (reset the played set when the
minute key changes, resolve due schedules, ring each one) together with the
`except` boundary that converts any raised exception into a log entry. -/
def loopIter (resolver : LocalTime → Except String (List Jadwal))
    (ringer : Jadwal → LocalTime → Except String Unit)
    (st : LoopState) (now : LocalTime) :
    LoopState × List RingEvent × Option String :=
  let st1 : LoopState :=
    if minuteKey now ≠ st.lastMinute then ⟨[], minuteKey now⟩ else st
  match resolver now with
  | .error e => (st1, [], some e)
  | .ok due => ringDue ringer now st1 due

/-- Result of running the scheduler loop over a list of ticks. -/
structure RunResult where
  state : LoopState
  iters : Nat
  events : List RingEvent
  logs : List String
deriving Repr

/-- The `while self._running` loop of `BellScheduler._loop`.  Before each
iteration the running flag is consulted; `stopReq i` models whether a stop
request (signal handler or `stop()` call) arrived before iteration `i`.
The tick list supplies the successive values of
`timezone.localtime(timezone.now())`.  Each executed iteration is the
caught body `loopIter`; a caught exception is appended to the logs and the
loop continues with the next tick. -/
def runLoop (resolver : LocalTime → Except String (List Jadwal))
    (ringer : Jadwal → LocalTime → Except String Unit)
    (stopReq : Nat → Bool) :
    Nat → List LocalTime → LoopState → RunResult
  | _, [], st => ⟨st, 0, [], []⟩
  | i, now :: ticks, st =>
    if stopReq i then ⟨st, 0, [], []⟩
    else
      let b := loopIter resolver ringer st now
      let r := runLoop resolver ringer stopReq (i + 1) ticks b.1
      ⟨r.state, r.iters + 1, b.2.1 ++ r.events,
        (match b.2.2 with | some e => [e] | none => []) ++ r.logs⟩

/-- The initial loop state set in `BellScheduler.__init__`. -/
def initLoopState : LoopState := ⟨[], ""⟩

/-- The resolver the real loop uses: `_get_due_schedules`, which raises
nothing in this model. -/
def pureResolver (db : DB) : LocalTime → Except String (List Jadwal) :=
  fun now => Except.ok (getDueSchedules db now)

/-- A ringer that never raises (`_ring_bell` on a well-formed schedule). -/
def pureRinger : Jadwal → LocalTime → Except String Unit :=
  fun _ _ => Except.ok ()

/-- The pks of the schedules due at `now`. -/
def duePks (db : DB) (now : LocalTime) : List Nat :=
  (getDueSchedules db now).map (fun s => s.pk)

/-- Number of ring events for schedule `p` during minute `k`. -/
def countRing (evs : List RingEvent) (k : String) (p : Nat) : Nat :=
  (evs.filter (fun e => e.key == k && e.pk == p)).length

/-- Two timestamps lie in the same calendar minute. -/
def SameMinute (t m : LocalTime) : Prop :=
  t.dayNumber = m.dayNumber ∧ t.hour = m.hour ∧ t.minute = m.minute

instance (t m : LocalTime) : Decidable (SameMinute t m) := by
  unfold SameMinute
  infer_instance

/-- Modelled from the spec: how many iterations the `while self._running`
control flow itself permits — the ticks before the first iteration whose
flag check sees a stop request.  (Used only to compare `runLoop` against
the spec's termination contract.) -/
def ticksBeforeStop (stopReq : Nat → Bool) : Nat → List LocalTime → Nat
  | _, [] => 0
  | i, _ :: ticks =>
    if stopReq i then 0 else ticksBeforeStop stopReq (i + 1) ticks + 1

/-! ## Conflict validator (views.py lines 329–416) -/

/-- One entry of the validator's `jam_list`, already parsed by
`datetime.strptime(jam_str, '%H:%M')` — the callers reject malformed
strings before the validator runs; its display string is the `HH:MM`
rendering. -/
structure TimeHM where
  hour : Nat
  minute : Nat
deriving DecidableEq, Repr

/-- The `HH:MM` string of a proposed time. -/
def TimeHM.str (t : TimeHM) : String := pad2 t.hour ++ ":" ++ pad2 t.minute

/-- The `time` object obtained from parsing `%H:%M` (second = 0). -/
def TimeHM.toTime (t : TimeHM) : TimeOfDay := ⟨t.hour, t.minute, 0⟩

/-- Rank of a `hari` value under alphabetical ordering of the stored
strings — the order Django's default `Meta.ordering = ['hari', 'jam']`
gives a CharField. -/
def hariAlphaRank : Hari → Nat
  | .jumat => 0 | .kamis => 1 | .minggu => 2 | .rabu => 3
  | .sabtu => 4 | .selasa => 5 | .senin => 6

/-- Insert into a sorted list, after any equal keys (stable). -/
def insSorted {α β : Type} [LinearOrder β] (key : α → β) (x : α) :
    List α → List α
  | [] => [x]
  | y :: ys => if key x < key y then x :: y :: ys else y :: insSorted key x ys

/-- Stable ascending sort by a key (Python `sorted(..., key=...)` and the
Django `order_by` clauses). -/
def sortByKey {α β : Type} [LinearOrder β] (key : α → β) (l : List α) : List α :=
  l.foldl (fun acc x => insSorted key x acc) []

/-- The `['hari', 'jam']` ordering of `JadwalBel` rows: stable sort by jam,
then by the hari string. -/
def orderByHariJam (l : List Jadwal) : List Jadwal :=
  sortByKey (fun s => hariAlphaRank s.hari) (sortByKey (fun s => jamSec s) l)

/-- One proposed dict of `_validate_schedule_conflicts`
(`{'hari', 'jam', 'start', 'end'}`). -/
structure Candidate where
  hari : Hari
  jam : String
  start : Int
  stop : Int
deriving DecidableEq, Repr

/-- Build the proposed dict for `(hari, jam_str)` with the new clip's
duration (`'end': start + new_duration`). -/
def mkCandidate (dur : Int) (h : Hari) (j : TimeHM) : Candidate :=
  ⟨h, j.str, timeToSeconds j.toTime, timeToSeconds j.toTime + dur⟩

/-- One existing-schedule dict of `_validate_schedule_conflicts`
(`{'nama', 'jam', 'start', 'end', 'musik'}`). -/
structure ExistingItem where
  nama : String
  jam : String
  start : Int
  stop : Int
  musik : String
deriving DecidableEq, Repr

/-- Build the existing-schedule dict from a `JadwalBel` row. -/
def mkExisting (s : Jadwal) : ExistingItem :=
  ⟨s.nama, s.jam.hhmm, timeToSeconds s.jam,
   timeToSeconds s.jam + musicDurationSeconds s.musik,
   match s.musik with | some m => m.nama | none => "Tanpa Musik"⟩

/-- `musik_label`: the clip's display name, or `'Tanpa Musik'`. -/
def musikLabel (m : Option Musik) : String :=
  match m with | some mu => mu.nama | none => "Tanpa Musik"

/-- `dict.setdefault(key, []).append(v)` on an insertion-ordered dict. -/
def insertGrouped {α : Type} (key : Hari) (v : α) :
    List (Hari × List α) → List (Hari × List α)
  | [] => [(key, [v])]
  | (k, vs) :: rest =>
    if k = key then (k, vs ++ [v]) :: rest
    else (k, vs) :: insertGrouped key v rest

/-- `d.get(key, [])` on an insertion-ordered dict. -/
def lookupGroup {α : Type} (h : Hari) : List (Hari × List α) → List α
  | [] => []
  | (k, vs) :: rest => if k = h then vs else lookupGroup h rest

/-- `proposed_by_day`: the cross-product of `hari_list × jam_list`,
grouped by weekday in iteration order. -/
def proposedByDay (dur : Int) (hariList : List Hari) (jamList : List TimeHM) :
    List (Hari × List Candidate) :=
  hariList.foldl (fun m h =>
    jamList.foldl (fun m j => insertGrouped h (mkCandidate dur h j) m) m) []

/-- `existing_qs`: active schedules, minus `exclude_pks`, in the model's
default ordering. -/
def existingQs (db : DB) (excludePks : List Nat) : List Jadwal :=
  orderByHariJam (db.jadwal.filter fun s =>
    s.aktif && !(excludePks.contains s.pk))

/-- `existing_by_day`: the existing-schedule dicts grouped by weekday. -/
def existingByDay (db : DB) (excludePks : List Nat) :
    List (Hari × List ExistingItem) :=
  (existingQs db excludePks).foldl (fun m s => insertGrouped s.hari (mkExisting s) m) []

/-- The "same start time" message against an existing schedule. -/
def sameStartExistingMsg (dayLabel itemJam existingNama : String) : String :=
  dayLabel ++ " " ++ itemJam ++ " bentrok dengan jadwal \"" ++ existingNama
    ++ "\" karena waktu mulai sama."

/-- The "audio still playing" message against an existing schedule. -/
def overlapExistingMsg (dayLabel itemJam existingNama existingJam endStr : String) :
    String :=
  dayLabel ++ " " ++ itemJam ++ " bentrok dengan \"" ++ existingNama ++ "\" ("
    ++ existingJam ++ "–" ++ endStr ++ ") karena suara bell masih diputar."

/-- The "same start time" message between two batch candidates. -/
def batchSameStartMsg (dayLabel leftJam rightJam : String) : String :=
  dayLabel ++ " " ++ leftJam ++ " dan " ++ rightJam
    ++ " bentrok karena waktu mulai sama."

/-- The "audio still playing" message between two batch candidates. -/
def batchOverlapMsg (dayLabel leftJam leftEndStr rightJam label : String) : String :=
  dayLabel ++ " " ++ leftJam ++ "–" ++ leftEndStr ++ " bentrok dengan "
    ++ rightJam ++ " karena musik \"" ++ label ++ "\" masih diputar."

/-- The message (if any) one candidate/existing pair produces: equal
starts give the "same start" message and skip the overlap test
(`continue`); otherwise an interval overlap gives the "audio still
playing" message. -/
def pairMsgExisting (dayLabel : String) (item : Candidate) (ex : ExistingItem) :
    Option String :=
  if item.start = ex.start then
    some (sameStartExistingMsg dayLabel item.jam ex.nama)
  else if intervalOverlaps item.start item.stop ex.start ex.stop then
    some (overlapExistingMsg dayLabel item.jam ex.nama ex.jam
      (secondsToTimeStr ex.stop))
  else none

/-- The message (if any) one ordered batch pair produces, same shape. -/
def pairMsgBatch (label dayLabel : String) (l r : Candidate) : Option String :=
  if l.start = r.start then
    some (batchSameStartMsg dayLabel l.jam r.jam)
  else if intervalOverlaps l.start l.stop r.start r.stop then
    some (batchOverlapMsg dayLabel l.jam (secondsToTimeStr l.stop) r.jam label)
  else none

/-- All position-ordered pairs
(`for idx in range(n): for right in sorted_items[idx+1:]`). -/
def pairsAfter {α : Type} : List α → List (α × α)
  | [] => []
  | x :: xs => xs.map (fun y => (x, y)) ++ pairsAfter xs

/-- The messages one weekday's iteration generates, in generation order:
every candidate against every existing item of that day, then every
ordered pair of candidates sorted by start. -/
def dayMsgs (db : DB) (musik : Option Musik) (excludePks : List Nat)
    (h : Hari) (items : List Candidate) : List String :=
  (items.flatMap fun item =>
    (lookupGroup h (existingByDay db excludePks)).filterMap
      (pairMsgExisting h.label item))
  ++ (pairsAfter (sortByKey (fun c => c.start) items)).filterMap
      (fun lr => pairMsgBatch (musikLabel musik) h.label lr.1 lr.2)

/-- Every message `add_error` is called with, in call order. -/
def rawConflictMsgs (db : DB) (hariList : List Hari) (jamList : List TimeHM)
    (musik : Option Musik) (excludePks : List Nat) : List String :=
  (proposedByDay (musicDurationSeconds musik) hariList jamList).flatMap
    fun gr => dayMsgs db musik excludePks gr.1 gr.2

/-- `add_error` (views.py): append unless the exact string was seen.
The accumulator is `(errors, seen)`. -/
def addError (acc : List String × List String) (message : String) :
    List String × List String :=
  if acc.2.contains message then acc
  else (acc.1 ++ [message], message :: acc.2)

/-- First-occurrence deduplication keeping arrival order (what folding
`add_error` computes). -/
def dedupFirstAux (seen : List String) : List String → List String
  | [] => []
  | m :: ms =>
    if seen.contains m then dedupFirstAux seen ms
    else m :: dedupFirstAux (m :: seen) ms

/-- `dedupFirstAux` from an empty seen-set. -/
def dedupFirst (l : List String) : List String := dedupFirstAux [] l

/-- `_validate_schedule_conflicts` (views.py): generate every conflict
message in one pass and dedup with the `seen` set. -/
def validateScheduleConflicts (db : DB) (hariList : List Hari)
    (jamList : List TimeHM) (musik : Option Musik) (excludePks : List Nat) :
    List String :=
  ((rawConflictMsgs db hariList jamList musik excludePks).foldl addError
    ([], [])).1

/-- Spec-side predicate for C8: the proposed batch contains at least one
conflicting pair — a candidate sharing a start or overlapping with an
eligible existing schedule on its weekday, or two batch candidates on one
weekday sharing a start or overlapping. -/
def HasConflict (db : DB) (hariList : List Hari) (jamList : List TimeHM)
    (musik : Option Musik) (excludePks : List Nat) : Prop :=
  ∃ gr ∈ proposedByDay (musicDurationSeconds musik) hariList jamList,
    (∃ item ∈ gr.2, ∃ ex ∈ lookupGroup gr.1 (existingByDay db excludePks),
      item.start = ex.start
        ∨ intervalOverlaps item.start item.stop ex.start ex.stop = true)
    ∨ ∃ lr ∈ pairsAfter (sortByKey (fun c => c.start) gr.2),
        lr.1.start = lr.2.start
          ∨ intervalOverlaps lr.1.start lr.1.stop lr.2.start lr.2.stop = true

/-! ## Group editing (views.py lines 647–768) -/

/-- The pks of the group being edited
(`group_qs.values_list('pk', flat=True)`). -/
def groupCurrentPks (db : DB) (nama : String) : List Nat :=
  (db.jadwal.filter fun s => s.nama == nama).map (fun s => s.pk)

/-- The duplicate day+time check of `jadwal_group_edit_view` (lines
696–707): every schedule — active or not, `including the group's own
rows` — whose weekday is among the chosen days and whose time equals one
of the chosen times produces a "sudah ada" error. -/
def groupEditDuplicateErrors (db : DB) (hariList : List Hari)
    (jamList : List TimeHM) : List String :=
  (orderByHariJam (db.jadwal.filter fun s =>
      hariList.contains s.hari && jamList.any (fun j => s.jam == j.toTime))).map
    fun s =>
      "Jadwal pada " ++ s.hari.label ++ " " ++ s.jam.hhmm ++ " sudah ada (\""
        ++ s.nama ++ "\"). Pilih hari atau jam lain."

/-- The validation pipeline of the POST branch of `jadwal_group_edit_view`
for well-typed inputs (`hari`/`jam` format checks are vacuous on the typed
model; the `musik` lookup is passed as an object): basic checks, then the
duplicate day+time check (which does NOT exclude the group's own rows —
`current_pks` is only collected afterwards for the conflict check), then
`_validate_schedule_conflicts` with `exclude_pks=current_pks` when the
batch is active, with the final de-duplication the view applies. -/
def groupEditErrors (db : DB) (nama newNama : String) (hariList : List Hari)
    (jamList : List TimeHM) (musik : Option Musik) (aktif : Bool) : List String :=
  let errors0 : List String :=
    (if newNama = "" then ["Nama jadwal tidak boleh kosong."] else [])
    ++ (if hariList = [] then ["Pilih setidaknya satu hari."] else [])
    ++ (if jamList = [] then ["Tambahkan setidaknya satu waktu bel."] else [])
  let errors1 := errors0
    ++ (if errors0 = [] then groupEditDuplicateErrors db hariList jamList else [])
  let errors2 := errors1
    ++ (if errors1 = [] && aktif then
        validateScheduleConflicts db hariList jamList musik (groupCurrentPks db nama)
      else [])
  dedupFirst errors2

end Cobrell

namespace Cobrell

/-- Membership in the matched-rows query of the resolver. -/
theorem mem_dueMatches (db : DB) (now : LocalTime) (t : Jadwal) :
    t ∈ dueMatches db now ↔
      t ∈ db.jadwal ∧ t.aktif = true ∧ t.hari = weekdayMap now.weekday
        ∧ t.jam.hour = now.hour ∧ t.jam.minute = now.minute := by
  simp only [dueMatches, List.mem_filter, Bool.and_eq_true, beq_iff_eq]
  tauto

/-- C2: membership in `_get_due_schedules`: exactly the rows that are
active, on today's weekday, matching `now` at minute granularity (seconds
ignored), and not suppressed by an exception dated `now.date()` — so an
exception dated another day (e.g. the following week's matching day) does
not suppress the schedule. -/
theorem get_due_schedules_spec (db : DB) (now : LocalTime) (s : Jadwal) :
    s ∈ getDueSchedules db now ↔
      s ∈ db.jadwal ∧ s.aktif = true ∧ s.hari = weekdayMap now.weekday
      ∧ s.jam.hour = now.hour ∧ s.jam.minute = now.minute
      ∧ ∀ p ∈ db.peng, ¬(p.tanggal = now.dayNumber ∧ p.jadwalPk = s.pk) := by
  unfold getDueSchedules
  by_cases hempty : (dueMatches db now).isEmpty
  · simp only [hempty, if_true]
    have hnil : dueMatches db now = [] := List.isEmpty_iff.mp hempty
    constructor
    · intro h; exact absurd h (List.not_mem_nil s)
    · rintro ⟨h1, h2, h3, h4, h5, -⟩
      have : s ∈ dueMatches db now := (mem_dueMatches db now s).mpr ⟨h1, h2, h3, h4, h5⟩
      rw [hnil] at this
      exact absurd this (List.not_mem_nil s)
  · simp only [hempty, if_false]
    constructor
    · intro h
      obtain ⟨hs, hflag⟩ := List.mem_filter.mp h
      obtain ⟨h1, h2, h3, h4, h5⟩ := (mem_dueMatches db now s).mp hs
      refine ⟨h1, h2, h3, h4, h5, ?_⟩
      rintro p hp ⟨hpt, hpk⟩
      have hin : p ∈ db.peng.filter fun p =>
          p.tanggal == now.dayNumber
            && ((dueMatches db now).any fun t => t.pk == p.jadwalPk) := by
        refine List.mem_filter.mpr ⟨hp, ?_⟩
        simp only [Bool.and_eq_true, beq_iff_eq, List.any_eq_true]
        exact ⟨hpt, s, hs, hpk.symm⟩
      have hmm : s.pk ∈ dueExceptionIds db now :=
        List.mem_map.mpr ⟨p, hin, hpk⟩
      rw [Bool.not_eq_true', ← Bool.not_eq_true] at hflag
      exact hflag (List.elem_iff.mpr hmm)
    · rintro ⟨h1, h2, h3, h4, h5, hnop⟩
      have hs : s ∈ dueMatches db now := (mem_dueMatches db now s).mpr ⟨h1, h2, h3, h4, h5⟩
      refine List.mem_filter.mpr ⟨hs, ?_⟩
      rw [Bool.not_eq_true', ← Bool.not_eq_true]
      intro hc
      have hmemmap := List.elem_iff.mp hc
      obtain ⟨p, hpf, hpk⟩ := List.mem_map.mp hmemmap
      obtain ⟨hp, hcond⟩ := List.mem_filter.mp hpf
      simp only [Bool.and_eq_true, beq_iff_eq, List.any_eq_true] at hcond
      exact hnop p hp ⟨hcond.1, hpk⟩

end Cobrell

namespace Cobrell

/-- C3: the scheduler loop is resilient: for every resolver and ringer —
including ones that raise on every call — the loop executes one iteration
per tick until the first stop request and never terminates early; with no
stop request it consumes every tick.  Exceptions inside an iteration are
caught at the loop boundary (see `loopIter`), so only an explicit stop
request ends the loop. -/
theorem loop_terminates_only_on_stop
    (resolver : LocalTime → Except String (List Jadwal))
    (ringer : Jadwal → LocalTime → Except String Unit)
    (stopReq : Nat → Bool) (i : Nat) (ticks : List LocalTime) (st : LoopState) :
    (runLoop resolver ringer stopReq i ticks st).iters = ticksBeforeStop stopReq i ticks
    ∧ (runLoop resolver ringer (fun _ => false) i ticks st).iters = ticks.length := by
  constructor
  · induction ticks generalizing i st with
    | nil => rfl
    | cons t ts ih =>
      simp only [runLoop, ticksBeforeStop]
      by_cases h : stopReq i = true
      · simp [h]
      · rw [Bool.not_eq_true] at h
        simp only [h, Bool.false_eq_true, if_false]
        rw [ih]
  · induction ticks generalizing i st with
    | nil => rfl
    | cons t ts ih =>
      simp only [runLoop, Bool.false_eq_true, if_false, List.length_cons]
      rw [ih]

/-- `ringDue` with a non-raising ringer skips every already-played pk. -/
theorem ringDue_skip (now : LocalTime) (st : LoopState) (due : List Jadwal)
    (h : ∀ j ∈ due, j.pk ∈ st.played) :
    ringDue pureRinger now st due = (st, [], none) := by
  induction due with
  | nil => rfl
  | cons j rest ih =>
    have hc : st.played.contains j.pk = true :=
      List.elem_iff.mpr (h j (List.mem_cons_self j rest))
    simp only [ringDue, hc, if_true]
    exact ih (fun j' hj' => h j' (List.mem_cons_of_mem _ hj'))

/-- Unfolding `countRing` over a cons cell. -/
theorem countRing_cons (e : RingEvent) (evs : List RingEvent) (k : String) (p : Nat) :
    countRing (e :: evs) k p =
      (if e.key = k ∧ e.pk = p then 1 else 0) + countRing evs k p := by
  by_cases h : (e.key == k && e.pk == p) = true
  · have hp : e.key = k ∧ e.pk = p := by
      simpa [Bool.and_eq_true, beq_iff_eq] using h
    simp only [countRing, List.filter_cons, h, if_true, List.length_cons, if_pos hp]
    omega
  · have hp : ¬(e.key = k ∧ e.pk = p) := by
      intro hh
      exact h (by simp [hh.1, hh.2])
    rw [Bool.not_eq_true] at h
    simp only [countRing, List.filter_cons, h, Bool.false_eq_true, if_false, if_neg hp]
    omega

/-- Behaviour of `ringDue` with a non-raising ringer: no error, the minute
key is untouched, the played set gains exactly the due pks, every emitted
event carries the current minute key, and each not-yet-played due pk is
rung exactly once. -/
theorem ringDue_ok (now : LocalTime) (due : List Jadwal) (st : LoopState) :
    (ringDue pureRinger now st due).2.2 = none
    ∧ (ringDue pureRinger now st due).1.lastMinute = st.lastMinute
    ∧ (∀ q, q ∈ (ringDue pureRinger now st due).1.played ↔
        q ∈ st.played ∨ q ∈ due.map (fun s => s.pk))
    ∧ (∀ e ∈ (ringDue pureRinger now st due).2.1, e.key = minuteKey now)
    ∧ ∀ p, countRing (ringDue pureRinger now st due).2.1 (minuteKey now) p =
        if p ∈ due.map (fun s => s.pk) ∧ p ∉ st.played then 1 else 0 := by
  induction due generalizing st with
  | nil =>
    refine ⟨rfl, rfl, ?_, ?_, ?_⟩
    · intro q; simp [ringDue]
    · intro e he; simp [ringDue] at he
    · intro p; simp [ringDue, countRing]
  | cons j rest ih =>
    by_cases hc : st.played.contains j.pk = true
    · have hmem : j.pk ∈ st.played := List.elem_iff.mp hc
      simp only [ringDue, hc, if_true]
      obtain ⟨i1, i2, i3, i4, i5⟩ := ih st
      refine ⟨i1, i2, ?_, i4, ?_⟩
      · intro q
        rw [i3 q]
        simp only [List.map_cons, List.mem_cons]
        constructor
        · rintro (h' | h')
          · exact Or.inl h'
          · exact Or.inr (Or.inr h')
        · rintro (h' | h' | h')
          · exact Or.inl h'
          · exact Or.inl (h' ▸ hmem)
          · exact Or.inr h'
      · intro p
        rw [i5 p]
        simp only [List.map_cons, List.mem_cons]
        by_cases hp : p = j.pk
        · subst hp
          simp [hmem]
        · simp [hp]
    · rw [Bool.not_eq_true] at hc
      have hnmem : j.pk ∉ st.played := by
        intro h'
        have h2 : st.played.contains j.pk = true := List.elem_iff.mpr h'
        rw [hc] at h2
        exact Bool.false_ne_true h2
      simp only [ringDue, hc, Bool.false_eq_true, if_false, pureRinger]
      obtain ⟨i1, i2, i3, i4, i5⟩ :=
        ih (⟨j.pk :: st.played, st.lastMinute⟩ : LoopState)
      refine ⟨i1, i2, ?_, ?_, ?_⟩
      · intro q
        rw [i3 q]
        simp only [List.map_cons, List.mem_cons]
        tauto
      · intro e he
        rcases List.mem_cons.mp he with rfl | he'
        · rfl
        · exact i4 e he'
      · intro p
        rw [countRing_cons, i5 p]
        by_cases hp : p = j.pk
        · subst hp
          rw [if_pos ⟨rfl, rfl⟩]
          rw [if_neg (by rintro ⟨-, h2⟩; exact h2 (by simp))]
          rw [if_pos ⟨by simp, hnmem⟩]
        · rw [if_neg (by rintro ⟨-, h2⟩; exact hp h2.symm)]
          have hiff : (p ∈ List.map (fun s => s.pk) rest
                ∧ p ∉ (⟨j.pk :: st.played, st.lastMinute⟩ : LoopState).played)
              ↔ (p ∈ List.map (fun s => s.pk) (j :: rest) ∧ p ∉ st.played) := by
            simp only [List.map_cons, List.mem_cons]
            constructor
            · rintro ⟨h1, h2⟩
              exact ⟨Or.inr h1, fun hin => h2 (Or.inr hin)⟩
            · rintro ⟨h1, h2⟩
              rcases h1 with h1 | h1
              · exact absurd h1 hp
              · refine ⟨h1, fun hin => ?_⟩
                rcases hin with h' | h'
                · exact hp h'
                · exact h2 h'
          rw [if_congr hiff rfl rfl]
          omega

/-- Ticks in the same minute share the minute key. -/
theorem minuteKey_congr (t m : LocalTime) (h : SameMinute t m) :
    minuteKey t = minuteKey m := by
  obtain ⟨-, h2, h3⟩ := h
  simp [minuteKey, h2, h3]

/-- The matched-rows query only reads day number, hour and minute. -/
theorem dueMatches_congr (db : DB) (t m : LocalTime) (h : SameMinute t m) :
    dueMatches db t = dueMatches db m := by
  obtain ⟨h1, h2, h3⟩ := h
  unfold dueMatches LocalTime.weekday
  rw [h1, h2, h3]

/-- The exception-id query only reads day number, hour and minute. -/
theorem dueExceptionIds_congr (db : DB) (t m : LocalTime) (h : SameMinute t m) :
    dueExceptionIds db t = dueExceptionIds db m := by
  unfold dueExceptionIds
  rw [dueMatches_congr db t m h, h.1]

/-- The due-schedule resolver only reads day number, hour and minute:
seconds never matter. -/
theorem getDueSchedules_congr (db : DB) (t m : LocalTime) (h : SameMinute t m) :
    getDueSchedules db t = getDueSchedules db m := by
  unfold getDueSchedules
  rw [dueMatches_congr db t m h, dueExceptionIds_congr db t m h]

/-- A minute key is never the empty string `_last_minute` starts as. -/
theorem minuteKey_ne_empty (t : LocalTime) : minuteKey t ≠ "" := by
  intro h
  have hl := congrArg String.length h
  rw [minuteKey, String.length_append, String.length_append] at hl
  have : (":" : String).length = 1 := rfl
  rw [this] at hl
  simp at hl

/-- Events with a fixed key contribute nothing to other keys' counts. -/
theorem countRing_other_key (evs : List RingEvent) (k' k : String) (p : Nat)
    (hk : ∀ e ∈ evs, e.key = k') (hne : k ≠ k') :
    countRing evs k p = 0 := by
  unfold countRing
  rw [List.length_eq_zero]
  rw [List.filter_eq_nil_iff]
  intro e he
  have hek := hk e he
  simp only [hek, Bool.and_eq_true, beq_iff_eq, not_and]
  intro hh
  exact absurd hh.symm hne

/-- `countRing` distributes over append. -/
theorem countRing_append (a b : List RingEvent) (k : String) (p : Nat) :
    countRing (a ++ b) k p = countRing a k p + countRing b k p := by
  simp [countRing, List.filter_append]

/-- Running the un-stopped loop through ticks that stay in an
already-seen minute whose due pks are all played changes nothing. -/
theorem runLoop_stale (db : DB) (m : LocalTime) (ticks : List LocalTime)
    (i : Nat) (st : LoopState)
    (hm : ∀ t ∈ ticks, SameMinute t m)
    (hl : st.lastMinute = minuteKey m)
    (hp : ∀ q ∈ duePks db m, q ∈ st.played) :
    runLoop (pureResolver db) pureRinger (fun _ => false) i ticks st
      = ⟨st, ticks.length, [], []⟩ := by
  induction ticks generalizing i with
  | nil => rfl
  | cons t ts ih =>
    have hsm : SameMinute t m := hm t (List.mem_cons_self t ts)
    have hkey : minuteKey t = st.lastMinute := by rw [hl]; exact minuteKey_congr t m hsm
    have hiter : loopIter (pureResolver db) pureRinger st t
        = (st, [], none) := by
      unfold loopIter pureResolver
      rw [if_neg (by rw [hkey]; exact fun hh => hh rfl)]
      rw [getDueSchedules_congr db t m hsm]
      exact ringDue_skip t st (getDueSchedules db m) (fun j hj =>
        hp j.pk (List.mem_map.mpr ⟨j, hj, rfl⟩))
    simp only [runLoop, Bool.false_eq_true, if_false, hiter]
    rw [ih (i + 1) (fun t' ht' => hm t' (List.mem_cons_of_mem _ ht'))]
    simp

/-- Running the un-stopped loop through a nonempty block of ticks in one
minute, entered with a different stored minute key: the played set is
reset and becomes exactly the due pks, the stored key becomes the block's
minute key, all events carry that key, and every due pk rings exactly
once. -/
theorem runLoop_fresh (db : DB) (m : LocalTime) (ticks : List LocalTime)
    (i : Nat) (st : LoopState)
    (hm : ∀ t ∈ ticks, SameMinute t m)
    (hne : ticks ≠ [])
    (hl : st.lastMinute ≠ minuteKey m) :
    (runLoop (pureResolver db) pureRinger (fun _ => false) i ticks st).state.lastMinute
        = minuteKey m
    ∧ (∀ q, q ∈ (runLoop (pureResolver db) pureRinger (fun _ => false) i ticks
        st).state.played ↔ q ∈ duePks db m)
    ∧ (∀ e ∈ (runLoop (pureResolver db) pureRinger (fun _ => false) i ticks st).events,
        e.key = minuteKey m)
    ∧ ∀ p, countRing (runLoop (pureResolver db) pureRinger (fun _ => false) i ticks
        st).events (minuteKey m) p = if p ∈ duePks db m then 1 else 0 := by
  match ticks, hne with
  | t :: ts, _ =>
    have hsm : SameMinute t m := hm t (List.mem_cons_self t ts)
    have hkey : minuteKey t = minuteKey m := minuteKey_congr t m hsm
    have hreset : loopIter (pureResolver db) pureRinger st t
        = ringDue pureRinger t (⟨[], minuteKey t⟩ : LoopState) (getDueSchedules db m) := by
      unfold loopIter pureResolver
      rw [if_pos (by rw [hkey]; exact fun hh => hl hh.symm)]
      rw [getDueSchedules_congr db t m hsm]
    obtain ⟨r1, r2, r3, r4, r5⟩ :=
      ringDue_ok t (getDueSchedules db m) (⟨[], minuteKey t⟩ : LoopState)
    have hplayed : ∀ q, q ∈ (ringDue pureRinger t (⟨[], minuteKey t⟩ : LoopState)
        (getDueSchedules db m)).1.played ↔ q ∈ duePks db m := by
      intro q
      rw [r3 q]
      simp [duePks]
    have hlast : (ringDue pureRinger t (⟨[], minuteKey t⟩ : LoopState)
        (getDueSchedules db m)).1.lastMinute = minuteKey m := by
      rw [r2, hkey]
    have hstale := runLoop_stale db m ts (i + 1)
      (ringDue pureRinger t (⟨[], minuteKey t⟩ : LoopState) (getDueSchedules db m)).1
      (fun t' ht' => hm t' (List.mem_cons_of_mem _ ht'))
      hlast
      (fun q hq => (hplayed q).mpr hq)
    simp only [runLoop, Bool.false_eq_true, if_false, hreset, hstale,
      List.append_nil]
    refine ⟨hlast, hplayed, ?_, ?_⟩
    · intro e he
      rw [← hkey]
      exact r4 e he
    · intro p
      rw [← hkey]
      rw [r5 p]
      simp [duePks]

/-- The un-stopped loop processes appended tick lists sequentially. -/
theorem runLoop_append (resolver : LocalTime → Except String (List Jadwal))
    (ringer : Jadwal → LocalTime → Except String Unit)
    (l1 l2 : List LocalTime) (i : Nat) (st : LoopState) :
    (runLoop resolver ringer (fun _ => false) i (l1 ++ l2) st).events
      = (runLoop resolver ringer (fun _ => false) i l1 st).events
        ++ (runLoop resolver ringer (fun _ => false) (i + l1.length) l2
            (runLoop resolver ringer (fun _ => false) i l1 st).state).events
    ∧ (runLoop resolver ringer (fun _ => false) i (l1 ++ l2) st).state
      = (runLoop resolver ringer (fun _ => false) (i + l1.length) l2
          (runLoop resolver ringer (fun _ => false) i l1 st).state).state := by
  induction l1 generalizing i st with
  | nil => simp [runLoop]
  | cons t ts ih =>
    simp only [List.cons_append, runLoop, Bool.false_eq_true, if_false]
    obtain ⟨ih1, ih2⟩ := ih (i + 1) (loopIter resolver ringer st t).1
    have harith : i + (ts.length + 1) = i + 1 + ts.length := by omega
    constructor
    · simp only [List.append_eq, List.length_cons, harith, ih1, List.append_assoc]
    · simp only [List.append_eq, List.length_cons, harith, ih2]

/-- C1: running the scheduler loop from its initial state over a nonempty
block of sub-minute ticks inside one minute, followed by a nonempty block
inside a different minute, rings every schedule due in the first minute
exactly once during that minute and every schedule due in the second
minute exactly once during that minute — the fired set is cleared at the
minute-key change, so the two minutes fire independently. -/
theorem loop_rings_exactly_once_per_minute (db : DB) (m1 m2 : LocalTime)
    (ticks1 ticks2 : List LocalTime)
    (h1 : ∀ t ∈ ticks1, SameMinute t m1) (h2 : ∀ t ∈ ticks2, SameMinute t m2)
    (hne1 : ticks1 ≠ []) (hne2 : ticks2 ≠ [])
    (hkey : minuteKey m1 ≠ minuteKey m2) :
    ∀ p, countRing (runLoop (pureResolver db) pureRinger (fun _ => false) 0
          (ticks1 ++ ticks2) initLoopState).events (minuteKey m1) p
        = (if p ∈ duePks db m1 then 1 else 0)
      ∧ countRing (runLoop (pureResolver db) pureRinger (fun _ => false) 0
          (ticks1 ++ ticks2) initLoopState).events (minuteKey m2) p
        = (if p ∈ duePks db m2 then 1 else 0) := by
  intro p
  obtain ⟨hev, hst⟩ :=
    runLoop_append (pureResolver db) pureRinger ticks1 ticks2 0 initLoopState
  obtain ⟨f1last, f1played, f1keys, f1count⟩ :=
    runLoop_fresh db m1 ticks1 0 initLoopState h1 hne1
      (fun hh => minuteKey_ne_empty m1 hh.symm)
  obtain ⟨f2last, f2played, f2keys, f2count⟩ :=
    runLoop_fresh db m2 ticks2 (0 + ticks1.length)
      (runLoop (pureResolver db) pureRinger (fun _ => false) 0 ticks1 initLoopState).state
      h2 hne2 (by rw [f1last]; exact hkey)
  rw [hev, countRing_append, countRing_append]
  constructor
  · rw [f1count p,
      countRing_other_key _ (minuteKey m2) (minuteKey m1) p f2keys hkey]
    omega
  · rw [f2count p,
      countRing_other_key _ (minuteKey m1) (minuteKey m2) p f1keys
        (fun hh => hkey hh.symm)]
    omega

/-- Witness for C1: one schedule at Monday 08:00; ticks at 08:00:00,
08:00:30 and 08:00:59 ring it exactly once, and a schedule at 08:01 rings
exactly once during the 08:01 ticks. -/
theorem loop_rings_exactly_once_per_minute_witness :
    countRing (runLoop
        (pureResolver (DB.mk
          [⟨1, "Masuk", Hari.senin, ⟨8, 0, 0⟩, none, true⟩,
           ⟨2, "Kedua", Hari.senin, ⟨8, 1, 0⟩, none, true⟩] []))
        pureRinger (fun _ => false) 0
        ([⟨0, 8, 0, 0⟩, ⟨0, 8, 0, 30⟩, ⟨0, 8, 0, 59⟩] ++ [⟨0, 8, 1, 0⟩, ⟨0, 8, 1, 30⟩])
        initLoopState).events (minuteKey ⟨0, 8, 0, 0⟩) 1
      = (if 1 ∈ duePks (DB.mk
          [⟨1, "Masuk", Hari.senin, ⟨8, 0, 0⟩, none, true⟩,
           ⟨2, "Kedua", Hari.senin, ⟨8, 1, 0⟩, none, true⟩] []) ⟨0, 8, 0, 0⟩
          then 1 else 0)
    ∧ countRing (runLoop
        (pureResolver (DB.mk
          [⟨1, "Masuk", Hari.senin, ⟨8, 0, 0⟩, none, true⟩,
           ⟨2, "Kedua", Hari.senin, ⟨8, 1, 0⟩, none, true⟩] []))
        pureRinger (fun _ => false) 0
        ([⟨0, 8, 0, 0⟩, ⟨0, 8, 0, 30⟩, ⟨0, 8, 0, 59⟩] ++ [⟨0, 8, 1, 0⟩, ⟨0, 8, 1, 30⟩])
        initLoopState).events (minuteKey ⟨0, 8, 1, 0⟩) 2
      = (if 2 ∈ duePks (DB.mk
          [⟨1, "Masuk", Hari.senin, ⟨8, 0, 0⟩, none, true⟩,
           ⟨2, "Kedua", Hari.senin, ⟨8, 1, 0⟩, none, true⟩] []) ⟨0, 8, 1, 0⟩
          then 1 else 0) := by
  have h := loop_rings_exactly_once_per_minute
    (DB.mk [⟨1, "Masuk", Hari.senin, ⟨8, 0, 0⟩, none, true⟩,
            ⟨2, "Kedua", Hari.senin, ⟨8, 1, 0⟩, none, true⟩] [])
    ⟨0, 8, 0, 0⟩ ⟨0, 8, 1, 0⟩
    [⟨0, 8, 0, 0⟩, ⟨0, 8, 0, 30⟩, ⟨0, 8, 0, 59⟩] [⟨0, 8, 1, 0⟩, ⟨0, 8, 1, 30⟩]
    (by decide) (by decide) (by decide) (by decide) (by decide)
  exact ⟨(h 1).1, (h 2).2⟩

/-- Folding `add_error` appends exactly the first-occurrence dedup of
the remaining messages. -/
theorem foldl_addError (l : List String) (errs seen : List String) :
    (l.foldl addError (errs, seen)).1 = errs ++ dedupFirstAux seen l := by
  induction l generalizing errs seen with
  | nil => simp [dedupFirstAux]
  | cons m ms ih =>
    simp only [List.foldl_cons, addError, dedupFirstAux]
    by_cases h : seen.contains m = true
    · simp only [h, if_true]
      exact ih errs seen
    · rw [Bool.not_eq_true] at h
      simp only [h, Bool.false_eq_true, if_false]
      rw [ih (errs ++ [m]) (m :: seen)]
      simp

/-- The validator equals first-occurrence dedup of the raw messages. -/
theorem validate_eq_dedupFirst (db : DB) (hariList : List Hari)
    (jamList : List TimeHM) (musik : Option Musik) (excludePks : List Nat) :
    validateScheduleConflicts db hariList jamList musik excludePks
      = dedupFirst (rawConflictMsgs db hariList jamList musik excludePks) := by
  unfold validateScheduleConflicts dedupFirst
  rw [foldl_addError]
  simp

/-- Membership through `dedupFirstAux`. -/
theorem mem_dedupFirstAux (seen l : List String) (x : String) :
    x ∈ dedupFirstAux seen l ↔ x ∈ l ∧ x ∉ seen := by
  induction l generalizing seen with
  | nil => simp [dedupFirstAux]
  | cons m ms ih =>
    simp only [dedupFirstAux]
    by_cases h : seen.contains m = true
    · have hm : m ∈ seen := List.elem_iff.mp h
      rw [if_pos h, ih]
      constructor
      · rintro ⟨h1, h2⟩
        exact ⟨List.mem_cons_of_mem _ h1, h2⟩
      · rintro ⟨h1, h2⟩
        rcases List.mem_cons.mp h1 with rfl | h1
        · exact absurd hm h2
        · exact ⟨h1, h2⟩
    · have hcond : ¬(seen.contains m = true) := h
      rw [Bool.not_eq_true] at h
      have hm : m ∉ seen := by
        intro h'
        have h2 : seen.contains m = true := List.elem_iff.mpr h'
        rw [h] at h2
        exact Bool.false_ne_true h2
      rw [if_neg hcond]
      constructor
      · intro hin
        rcases List.mem_cons.mp hin with rfl | hin
        · exact ⟨List.mem_cons_self _ _, hm⟩
        · obtain ⟨h1, h2⟩ := (ih (m :: seen)).mp hin
          exact ⟨List.mem_cons_of_mem _ h1,
            fun hx => h2 (List.mem_cons_of_mem _ hx)⟩
      · rintro ⟨h1, h2⟩
        rcases List.mem_cons.mp h1 with rfl | h1
        · exact List.mem_cons_self _ _
        · by_cases hxm : x = m
          · exact hxm ▸ List.mem_cons_self _ _
          · refine List.mem_cons_of_mem _ ((ih (m :: seen)).mpr ⟨h1, ?_⟩)
            intro hx
            rcases List.mem_cons.mp hx with h' | h'
            · exact hxm h'
            · exact h2 h'

/-- `dedupFirstAux` is a subsequence of its input. -/
theorem dedupFirstAux_sublist (seen l : List String) :
    List.Sublist (dedupFirstAux seen l) l := by
  induction l generalizing seen with
  | nil => simp [dedupFirstAux]
  | cons m ms ih =>
    simp only [dedupFirstAux]
    by_cases h : seen.contains m = true
    · rw [if_pos h]
      exact List.Sublist.cons m (ih seen)
    · rw [if_neg h]
      exact List.Sublist.cons₂ m (ih (m :: seen))

/-- `dedupFirstAux` has no duplicates. -/
theorem dedupFirstAux_nodup (seen l : List String) :
    (dedupFirstAux seen l).Nodup := by
  induction l generalizing seen with
  | nil => simp [dedupFirstAux]
  | cons m ms ih =>
    simp only [dedupFirstAux]
    by_cases h : seen.contains m = true
    · rw [if_pos h]
      exact ih seen
    · rw [if_neg h]
      refine List.Nodup.cons ?_ (ih (m :: seen))
      intro hin
      exact ((mem_dedupFirstAux (m :: seen) ms m).mp hin).2 (List.mem_cons_self m seen)

/-- `dedupFirstAux` returns `[]` exactly when all input is already seen. -/
theorem dedupFirstAux_eq_nil (seen l : List String) :
    dedupFirstAux seen l = [] ↔ ∀ m ∈ l, m ∈ seen := by
  induction l generalizing seen with
  | nil => simp [dedupFirstAux]
  | cons m ms ih =>
    simp only [dedupFirstAux]
    by_cases h : seen.contains m = true
    · have hm : m ∈ seen := List.elem_iff.mp h
      rw [if_pos h, ih]
      constructor
      · intro h1 m' hm'
        rcases List.mem_cons.mp hm' with rfl | hm'
        · exact hm
        · exact h1 m' hm'
      · intro h1 m' hm'
        exact h1 m' (List.mem_cons_of_mem _ hm')
    · have hcond : ¬(seen.contains m = true) := h
      rw [Bool.not_eq_true] at h
      have hm : m ∉ seen := by
        intro h'
        have h2 : seen.contains m = true := List.elem_iff.mpr h'
        rw [h] at h2
        exact Bool.false_ne_true h2
      rw [if_neg hcond]
      constructor
      · intro h1
        exact absurd h1 (List.cons_ne_nil m _)
      · intro h1
        exact absurd (h1 m (List.mem_cons_self m ms)) hm

/-- A candidate/existing pair produces no message exactly when the starts
differ and the intervals do not overlap. -/
theorem pairMsgExisting_eq_none (d : String) (item : Candidate) (ex : ExistingItem) :
    pairMsgExisting d item ex = none ↔
      ¬(item.start = ex.start
        ∨ intervalOverlaps item.start item.stop ex.start ex.stop = true) := by
  unfold pairMsgExisting
  by_cases h1 : item.start = ex.start
  · simp [h1]
  · by_cases h2 : intervalOverlaps item.start item.stop ex.start ex.stop = true
    · simp [h1, h2]
    · simp [h1, h2]

/-- A batch pair produces no message exactly when the starts differ and
the intervals do not overlap. -/
theorem pairMsgBatch_eq_none (label d : String) (l r : Candidate) :
    pairMsgBatch label d l r = none ↔
      ¬(l.start = r.start
        ∨ intervalOverlaps l.start l.stop r.start r.stop = true) := by
  unfold pairMsgBatch
  by_cases h1 : l.start = r.start
  · simp [h1]
  · by_cases h2 : intervalOverlaps l.start l.stop r.start r.stop = true
    · simp [h1, h2]
    · simp [h1, h2]

/-- The raw message list is empty exactly when the batch has no conflict. -/
theorem rawConflictMsgs_eq_nil (db : DB) (hariList : List Hari)
    (jamList : List TimeHM) (musik : Option Musik) (excludePks : List Nat) :
    rawConflictMsgs db hariList jamList musik excludePks = []
      ↔ ¬ HasConflict db hariList jamList musik excludePks := by
  unfold rawConflictMsgs HasConflict
  rw [List.flatMap_eq_nil_iff]
  constructor
  · intro h
    rintro ⟨gr, hgr, hcase⟩
    have hday := h gr hgr
    unfold dayMsgs at hday
    rw [List.append_eq_nil] at hday
    obtain ⟨hA, hB⟩ := hday
    rcases hcase with ⟨item, hitem, ex, hex, hor⟩ | ⟨lr, hlr, hor⟩
    · rw [List.flatMap_eq_nil_iff] at hA
      have h2 := hA item hitem
      rw [List.filterMap_eq_nil_iff] at h2
      exact (pairMsgExisting_eq_none _ item ex).mp (h2 ex hex) hor
    · rw [List.filterMap_eq_nil_iff] at hB
      exact (pairMsgBatch_eq_none _ _ lr.1 lr.2).mp (hB lr hlr) hor
  · intro hnc gr hgr
    unfold dayMsgs
    rw [List.append_eq_nil]
    constructor
    · rw [List.flatMap_eq_nil_iff]
      intro item hitem
      rw [List.filterMap_eq_nil_iff]
      intro ex hex
      rw [pairMsgExisting_eq_none]
      intro hor
      exact hnc ⟨gr, hgr, Or.inl ⟨item, hitem, ex, hex, hor⟩⟩
    · rw [List.filterMap_eq_nil_iff]
      intro lr hlr
      rw [pairMsgBatch_eq_none]
      intro hor
      exact hnc ⟨gr, hgr, Or.inr ⟨lr, hlr, hor⟩⟩

/-- C8: the validator reports, in one pass, exactly the messages of every
detected conflict: its output has no duplicate message, contains exactly
the messages of the raw one-pass generation, is a subsequence of that
generation (first-occurrence order preserved), and is empty exactly when
the batch has no conflict. -/
theorem validate_complete_dedup_spec (db : DB) (hariList : List Hari)
    (jamList : List TimeHM) (musik : Option Musik) (excludePks : List Nat) :
    (validateScheduleConflicts db hariList jamList musik excludePks).Nodup
    ∧ (∀ msg, msg ∈ validateScheduleConflicts db hariList jamList musik excludePks
        ↔ msg ∈ rawConflictMsgs db hariList jamList musik excludePks)
    ∧ List.Sublist (validateScheduleConflicts db hariList jamList musik excludePks)
        (rawConflictMsgs db hariList jamList musik excludePks)
    ∧ (validateScheduleConflicts db hariList jamList musik excludePks = []
        ↔ ¬ HasConflict db hariList jamList musik excludePks) := by
  rw [validate_eq_dedupFirst]
  unfold dedupFirst
  refine ⟨dedupFirstAux_nodup [] _, ?_, dedupFirstAux_sublist [] _, ?_⟩
  · intro msg
    rw [mem_dedupFirstAux]
    simp
  · rw [dedupFirstAux_eq_nil, ← rawConflictMsgs_eq_nil db hariList jamList musik excludePks]
    constructor
    · intro h
      rcases hr : rawConflictMsgs db hariList jamList musik excludePks with _ | ⟨m, ms⟩
      · rfl
      · have := h m (by rw [hr]; exact List.mem_cons_self m ms)
        exact absurd this (List.not_mem_nil m)
    · intro h
      rw [h]
      intro m hm
      exact absurd hm (List.not_mem_nil m)

/-- Inserting under a key appends to that key's group. -/
theorem lookupGroup_insert_self {α : Type} (h : Hari) (v : α)
    (m : List (Hari × List α)) :
    lookupGroup h (insertGrouped h v m) = lookupGroup h m ++ [v] := by
  induction m with
  | nil => simp [insertGrouped, lookupGroup]
  | cons e rest ih =>
    obtain ⟨k, vs⟩ := e
    simp only [insertGrouped]
    by_cases hk : k = h
    · rw [if_pos hk]
      simp only [lookupGroup, if_pos hk]
    · rw [if_neg hk]
      simp only [lookupGroup, if_neg hk]
      exact ih

/-- Inserting under a key leaves other keys' groups unchanged. -/
theorem lookupGroup_insert_other {α : Type} (k h : Hari) (hne : k ≠ h) (v : α)
    (m : List (Hari × List α)) :
    lookupGroup k (insertGrouped h v m) = lookupGroup k m := by
  induction m with
  | nil =>
    simp only [insertGrouped, lookupGroup]
    rw [if_neg (fun hh : h = k => hne hh.symm)]
  | cons e rest ih =>
    obtain ⟨k', vs⟩ := e
    simp only [insertGrouped]
    by_cases hk : k' = h
    · rw [if_pos hk]
      simp only [lookupGroup]
      rw [if_neg (fun hh : k' = k => hne (hh ▸ hk)), if_neg (fun hh : k' = k => hne (hh ▸ hk))]
    · rw [if_neg hk]
      simp only [lookupGroup]
      by_cases hkk : k' = k
      · rw [if_pos hkk, if_pos hkk]
      · rw [if_neg hkk, if_neg hkk]
        exact ih

/-- Membership in any group is preserved by further insertions. -/
theorem lookupGroup_mono_insert {α : Type} (k h : Hari) (w : α)
    (m : List (Hari × List α)) (v : α) (hv : v ∈ lookupGroup k m) :
    v ∈ lookupGroup k (insertGrouped h w m) := by
  by_cases hk : k = h
  · subst hk
    rw [lookupGroup_insert_self]
    exact List.mem_append_left _ hv
  · rw [lookupGroup_insert_other k h hk]
    exact hv

/-- The inner `for jam_str in jam_list` fold appends to the day's group. -/
theorem lookup_inner_fold (dur : Int) (h : Hari) (jamList : List TimeHM)
    (m : List (Hari × List Candidate)) :
    lookupGroup h (jamList.foldl
        (fun m j => insertGrouped h (mkCandidate dur h j) m) m)
      = lookupGroup h m ++ jamList.map (mkCandidate dur h) := by
  induction jamList generalizing m with
  | nil => simp
  | cons j js ih =>
    simp only [List.foldl_cons, List.map_cons]
    rw [ih, lookupGroup_insert_self]
    simp

/-- The inner fold leaves other days' groups unchanged. -/
theorem lookup_inner_fold_other (dur : Int) (k h : Hari) (hne : k ≠ h)
    (jamList : List TimeHM) (m : List (Hari × List Candidate)) :
    lookupGroup k (jamList.foldl
        (fun m j => insertGrouped h (mkCandidate dur h j) m) m)
      = lookupGroup k m := by
  induction jamList generalizing m with
  | nil => simp
  | cons j js ih =>
    simp only [List.foldl_cons]
    rw [ih, lookupGroup_insert_other k h hne]

/-- Membership in any day's group survives the outer `for hari` fold. -/
theorem lookup_outer_mono (dur : Int) (jamList : List TimeHM)
    (hariList : List Hari) (k : Hari) (m : List (Hari × List Candidate))
    (v : Candidate) (hv : v ∈ lookupGroup k m) :
    v ∈ lookupGroup k (hariList.foldl (fun m h =>
      jamList.foldl (fun m j => insertGrouped h (mkCandidate dur h j) m) m) m) := by
  induction hariList generalizing m with
  | nil => exact hv
  | cons h' hs ih =>
    simp only [List.foldl_cons]
    refine ih _ ?_
    by_cases hk : k = h'
    · subst hk
      rw [lookup_inner_fold]
      exact List.mem_append_left _ hv
    · rw [lookup_inner_fold_other dur k h' hk]
      exact hv

/-- Every `(hari, jam)` of the cross-product lands in its day's group of
`proposed_by_day`. -/
theorem mem_lookup_proposedByDay (dur : Int) (hariList : List Hari)
    (jamList : List TimeHM) (h : Hari) (j : TimeHM)
    (hh : h ∈ hariList) (hj : j ∈ jamList) :
    mkCandidate dur h j ∈ lookupGroup h (proposedByDay dur hariList jamList) := by
  unfold proposedByDay
  suffices haux : ∀ (hl : List Hari) (m : List (Hari × List Candidate)), h ∈ hl →
      mkCandidate dur h j ∈ lookupGroup h (hl.foldl (fun m h =>
        jamList.foldl (fun m j => insertGrouped h (mkCandidate dur h j) m) m) m) by
    exact haux hariList [] hh
  intro hl
  induction hl with
  | nil => intro m hmem; exact absurd hmem (List.not_mem_nil h)
  | cons h' hs ih =>
    intro m hmem
    simp only [List.foldl_cons]
    rcases List.mem_cons.mp hmem with rfl | hmem'
    · refine lookup_outer_mono dur jamList hs h _ _ ?_
      rw [lookup_inner_fold]
      refine List.mem_append_right _ ?_
      exact List.mem_map.mpr ⟨j, hj, rfl⟩
    · exact ih _ hmem'

/-- Membership in any day's group survives the existing-schedule fold. -/
theorem lookup_exist_fold_mono (l : List Jadwal) (k : Hari)
    (m : List (Hari × List ExistingItem)) (v : ExistingItem)
    (hv : v ∈ lookupGroup k m) :
    v ∈ lookupGroup k (l.foldl
      (fun m t => insertGrouped t.hari (mkExisting t) m) m) := by
  induction l generalizing m with
  | nil => exact hv
  | cons t ts ih =>
    simp only [List.foldl_cons]
    exact ih _ (lookupGroup_mono_insert k t.hari (mkExisting t) m v hv)

/-- Every queried existing schedule lands in its day's group of
`existing_by_day`. -/
theorem mem_lookup_existingFold (l : List Jadwal)
    (m : List (Hari × List ExistingItem)) (s : Jadwal) (hs : s ∈ l) :
    mkExisting s ∈ lookupGroup s.hari (l.foldl
      (fun m t => insertGrouped t.hari (mkExisting t) m) m) := by
  induction l generalizing m with
  | nil => exact absurd hs (List.not_mem_nil s)
  | cons t ts ih =>
    simp only [List.foldl_cons]
    rcases List.mem_cons.mp hs with rfl | hs'
    · refine lookup_exist_fold_mono ts s.hari _ _ ?_
      rw [lookupGroup_insert_self]
      exact List.mem_append_right _ (List.mem_singleton.mpr rfl)
    · exact ih _ hs'

/-- Stable insertion keeps exactly the elements. -/
theorem mem_insSorted {α β : Type} [LinearOrder β] (key : α → β) (v x : α)
    (l : List α) : x ∈ insSorted key v l ↔ x = v ∨ x ∈ l := by
  induction l with
  | nil => simp [insSorted]
  | cons y ys ih =>
    simp only [insSorted]
    by_cases h : key v < key y
    · rw [if_pos h]
      simp only [List.mem_cons]
    · rw [if_neg h]
      simp only [List.mem_cons, ih]
      tauto

/-- Sorting keeps exactly the elements. -/
theorem mem_sortByKey {α β : Type} [LinearOrder β] (key : α → β) (l : List α)
    (x : α) : x ∈ sortByKey key l ↔ x ∈ l := by
  unfold sortByKey
  suffices haux : ∀ acc, x ∈ l.foldl (fun acc y => insSorted key y acc) acc
      ↔ x ∈ acc ∨ x ∈ l by
    have := haux []
    simpa using this
  induction l with
  | nil => intro acc; simp
  | cons y ys ih =>
    intro acc
    simp only [List.foldl_cons, ih, mem_insSorted, List.mem_cons]
    tauto

/-- Membership in the validator's existing-schedule query. -/
theorem mem_existingQs (db : DB) (excludePks : List Nat) (s : Jadwal) :
    s ∈ existingQs db excludePks ↔
      s ∈ db.jadwal ∧ s.aktif = true ∧ excludePks.contains s.pk = false := by
  unfold existingQs orderByHariJam
  rw [mem_sortByKey, mem_sortByKey, List.mem_filter]
  simp only [Bool.and_eq_true, Bool.not_eq_true']

/-- Every message generated somewhere survives into the validator output. -/
theorem mem_validate_of_raw (db : DB) (hariList : List Hari)
    (jamList : List TimeHM) (musik : Option Musik) (excludePks : List Nat)
    (msg : String)
    (h : msg ∈ rawConflictMsgs db hariList jamList musik excludePks) :
    msg ∈ validateScheduleConflicts db hariList jamList musik excludePks := by
  rw [validate_eq_dedupFirst]
  unfold dedupFirst
  rw [mem_dedupFirstAux]
  exact ⟨h, by simp⟩

/-- C4: the per-pair conflict checks of `_validate_schedule_conflicts`.
Durations are `ceil(durasi)` (0 with no clip or a 0 duration) and each
interval is `[start, start + duration)`; for every candidate against every
eligible existing schedule of the same weekday, and for every ordered pair
of same-weekday candidates, equal start times produce the "same start
time" message for that pair (the overlap test is not applied: the pair's
message IS the same-start one), and otherwise overlapping intervals
produce the "audio still playing" message — all of which reach the
validator's output. -/
theorem validate_conflicts_pair_spec (db : DB) (hariList : List Hari)
    (jamList : List TimeHM) (musik : Option Musik) (excludePks : List Nat) :
    (musicDurationSeconds none = 0
      ∧ (∀ mu : Musik, mu.durasi = 0 → musicDurationSeconds (some mu) = 0)
      ∧ (∀ mu : Musik, mu.durasi ≠ 0 → musicDurationSeconds (some mu) = ⌈mu.durasi⌉)
      ∧ (∀ (h : Hari) (j : TimeHM),
          (mkCandidate (musicDurationSeconds musik) h j).stop
            = (mkCandidate (musicDurationSeconds musik) h j).start
              + musicDurationSeconds musik)
      ∧ ∀ s : Jadwal, (mkExisting s).stop
          = (mkExisting s).start + musicDurationSeconds s.musik)
    ∧ ((∀ h ∈ hariList, ∀ j ∈ jamList,
          mkCandidate (musicDurationSeconds musik) h j
            ∈ lookupGroup h (proposedByDay (musicDurationSeconds musik) hariList jamList))
      ∧ ∀ e ∈ db.jadwal, e.aktif = true → excludePks.contains e.pk = false →
          mkExisting e ∈ lookupGroup e.hari (existingByDay db excludePks))
    ∧ (∀ gr ∈ proposedByDay (musicDurationSeconds musik) hariList jamList,
        ∀ item ∈ gr.2, ∀ ex ∈ lookupGroup gr.1 (existingByDay db excludePks),
          (item.start = ex.start →
            pairMsgExisting gr.1.label item ex
                = some (sameStartExistingMsg gr.1.label item.jam ex.nama)
            ∧ sameStartExistingMsg gr.1.label item.jam ex.nama
                ∈ validateScheduleConflicts db hariList jamList musik excludePks)
          ∧ (item.start ≠ ex.start →
              intervalOverlaps item.start item.stop ex.start ex.stop = true →
              overlapExistingMsg gr.1.label item.jam ex.nama ex.jam
                  (secondsToTimeStr ex.stop)
                ∈ validateScheduleConflicts db hariList jamList musik excludePks))
    ∧ ∀ gr ∈ proposedByDay (musicDurationSeconds musik) hariList jamList,
        ∀ lr ∈ pairsAfter (sortByKey (fun c => c.start) gr.2),
          (lr.1.start = lr.2.start →
            pairMsgBatch (musikLabel musik) gr.1.label lr.1 lr.2
                = some (batchSameStartMsg gr.1.label lr.1.jam lr.2.jam)
            ∧ batchSameStartMsg gr.1.label lr.1.jam lr.2.jam
                ∈ validateScheduleConflicts db hariList jamList musik excludePks)
          ∧ (lr.1.start ≠ lr.2.start →
              intervalOverlaps lr.1.start lr.1.stop lr.2.start lr.2.stop = true →
              batchOverlapMsg gr.1.label lr.1.jam (secondsToTimeStr lr.1.stop)
                  lr.2.jam (musikLabel musik)
                ∈ validateScheduleConflicts db hariList jamList musik excludePks) := by
  refine ⟨⟨rfl, ?_, ?_, fun h j => rfl, fun s => rfl⟩, ⟨?_, ?_⟩, ?_, ?_⟩
  · intro mu hz
    simp [musicDurationSeconds, hz]
  · intro mu hz
    simp [musicDurationSeconds, hz]
  · intro h hh j hj
    exact mem_lookup_proposedByDay _ hariList jamList h j hh hj
  · intro e he hact hexc
    unfold existingByDay
    refine mem_lookup_existingFold (existingQs db excludePks) [] e ?_
    exact (mem_existingQs db excludePks e).mpr ⟨he, hact, hexc⟩
  · intro gr hgr item hitem ex hex
    constructor
    · intro heq
      have hmsg : pairMsgExisting gr.1.label item ex
          = some (sameStartExistingMsg gr.1.label item.jam ex.nama) := by
        unfold pairMsgExisting
        rw [if_pos heq]
      refine ⟨hmsg, mem_validate_of_raw db hariList jamList musik excludePks _ ?_⟩
      unfold rawConflictMsgs
      refine List.mem_flatMap.mpr ⟨gr, hgr, ?_⟩
      unfold dayMsgs
      refine List.mem_append_left _ ?_
      refine List.mem_flatMap.mpr ⟨item, hitem, ?_⟩
      exact List.mem_filterMap.mpr ⟨ex, hex, hmsg⟩
    · intro hne hov
      have hmsg : pairMsgExisting gr.1.label item ex
          = some (overlapExistingMsg gr.1.label item.jam ex.nama ex.jam
              (secondsToTimeStr ex.stop)) := by
        unfold pairMsgExisting
        rw [if_neg hne, if_pos hov]
      refine mem_validate_of_raw db hariList jamList musik excludePks _ ?_
      unfold rawConflictMsgs
      refine List.mem_flatMap.mpr ⟨gr, hgr, ?_⟩
      unfold dayMsgs
      refine List.mem_append_left _ ?_
      refine List.mem_flatMap.mpr ⟨item, hitem, ?_⟩
      exact List.mem_filterMap.mpr ⟨ex, hex, hmsg⟩
  · intro gr hgr lr hlr
    constructor
    · intro heq
      have hmsg : pairMsgBatch (musikLabel musik) gr.1.label lr.1 lr.2
          = some (batchSameStartMsg gr.1.label lr.1.jam lr.2.jam) := by
        unfold pairMsgBatch
        rw [if_pos heq]
      refine ⟨hmsg, mem_validate_of_raw db hariList jamList musik excludePks _ ?_⟩
      unfold rawConflictMsgs
      refine List.mem_flatMap.mpr ⟨gr, hgr, ?_⟩
      unfold dayMsgs
      refine List.mem_append_right _ ?_
      exact List.mem_filterMap.mpr ⟨lr, hlr, hmsg⟩
    · intro hne hov
      have hmsg : pairMsgBatch (musikLabel musik) gr.1.label lr.1 lr.2
          = some (batchOverlapMsg gr.1.label lr.1.jam (secondsToTimeStr lr.1.stop)
              lr.2.jam (musikLabel musik)) := by
        unfold pairMsgBatch
        rw [if_neg hne, if_pos hov]
      refine mem_validate_of_raw db hariList jamList musik excludePks _ ?_
      unfold rawConflictMsgs
      refine List.mem_flatMap.mpr ⟨gr, hgr, ?_⟩
      unfold dayMsgs
      refine List.mem_append_right _ ?_
      exact List.mem_filterMap.mpr ⟨lr, hlr, hmsg⟩

/-- Witness for C4: a candidate Monday 07:00 against an existing active
schedule "Masuk" at Monday 07:00 produces the same-start message (not the
overlap message) and that message appears in the validator output. -/
theorem validate_conflicts_pair_spec_witness :
    pairMsgExisting Hari.senin.label
        (mkCandidate (musicDurationSeconds none) Hari.senin ⟨7, 0⟩)
        (mkExisting ⟨1, "Masuk", Hari.senin, ⟨7, 0, 0⟩, none, true⟩)
      = some (sameStartExistingMsg Hari.senin.label
          (mkCandidate (musicDurationSeconds none) Hari.senin ⟨7, 0⟩).jam
          (mkExisting ⟨1, "Masuk", Hari.senin, ⟨7, 0, 0⟩, none, true⟩).nama)
    ∧ sameStartExistingMsg Hari.senin.label
        (mkCandidate (musicDurationSeconds none) Hari.senin ⟨7, 0⟩).jam
        (mkExisting ⟨1, "Masuk", Hari.senin, ⟨7, 0, 0⟩, none, true⟩).nama
      ∈ validateScheduleConflicts
          (DB.mk [⟨1, "Masuk", Hari.senin, ⟨7, 0, 0⟩, none, true⟩] [])
          [Hari.senin] [⟨7, 0⟩] none [] := by
  have h := (validate_conflicts_pair_spec
      (DB.mk [⟨1, "Masuk", Hari.senin, ⟨7, 0, 0⟩, none, true⟩] [])
      [Hari.senin] [⟨7, 0⟩] none []).2.2.1
      (Hari.senin, [mkCandidate (musicDurationSeconds none) Hari.senin ⟨7, 0⟩])
      (by decide)
      (mkCandidate (musicDurationSeconds none) Hari.senin ⟨7, 0⟩) (by decide)
      (mkExisting ⟨1, "Masuk", Hari.senin, ⟨7, 0, 0⟩, none, true⟩) (by decide)
  exact h.1 (by decide)

/-- C6 (failing input): re-submitting the group "Masuk" (one row, Monday
07:00, active, no clip) with its values unchanged is REJECTED: the
duplicate day+time check of `jadwal_group_edit_view` does not exclude the
group's own rows (they are collected only afterwards, for the conflict
check), so the view reports the group's own row as "sudah ada" — while the
conflict validator itself, run with the group's pks excluded, finds
nothing. -/
theorem group_edit_unchanged_resubmit_rejected :
    groupEditErrors (DB.mk [⟨1, "Masuk", Hari.senin, ⟨7, 0, 0⟩, none, true⟩] [])
        "Masuk" "Masuk" [Hari.senin] [⟨7, 0⟩] none true
      = ["Jadwal pada Senin 07:00 sudah ada (\"Masuk\"). Pilih hari atau jam lain."]
    ∧ validateScheduleConflicts
        (DB.mk [⟨1, "Masuk", Hari.senin, ⟨7, 0, 0⟩, none, true⟩] [])
        [Hari.senin] [⟨7, 0⟩] none
        (groupCurrentPks
          (DB.mk [⟨1, "Masuk", Hari.senin, ⟨7, 0, 0⟩, none, true⟩] []) "Masuk")
      = [] := by
  constructor
  · decide
  · decide

end Cobrell
